import Mathlib

/-!
Verification of the PII Span Extraction and Reconciliation Engine
(PII-Detect-And-Report).

The definitions below are a shallow embedding of the TypeScript source:

* `jsSubstring` models JavaScript `String.prototype.substring` (arguments
  clamped to the valid range and swapped when out of order);
* `PiiEntity` models `PiiEntitySchema` (the field `stop` embeds the source
  field `end`, which is a reserved word in Lean);
* `reconcile` models the segment construction of `HighlightedTextViewer`
  in `pii-protector-client.tsx` (the variant with the malformed-entity
  guard): sort by `start`, walk with a `lastIndex` cursor, skip entities
  that overlap already-emitted output or are out of bounds or empty, emit
  an optional plain gap plus an annotated segment, and emit the final tail;
* `normalizeType`, `processEntity`, `detectPiiFlow`, `detectPii` model the
  candidate-processing pipeline of the detect-pii flow (field sanity check,
  type normalization with `PII_TYPE_CORRECTIONS`, allow-list filter, exact
  index check and bounded fuzzy recovery with padding 2);
* `piiSummaryCounts` models the `reduce`-built per-type count record of the
  client, as an association list in JavaScript object key insertion order.
-/

namespace PIIEngine

/-- Clamp a JavaScript substring index into the range from 0 to `len`. -/
def clampIdx (len : Nat) (i : Int) : Nat := (min (max i 0) (len : Int)).toNat

/-- JavaScript `text.substring(a, b)`: both arguments are clamped to the
range from 0 to the length and swapped if given out of order. -/
def jsSubstring (s : List Char) (a b : Int) : List Char :=
  let x := clampIdx s.length a
  let y := clampIdx s.length b
  (s.take (max x y)).drop (min x y)

/-- An oracle-proposed PII entity (`PiiEntitySchema`).  The field `stop`
embeds the source field `end` (a reserved word in Lean). -/
structure PiiEntity where
  type : String
  value : String
  start : Int
  stop : Int
  confidence : String
deriving DecidableEq

/-- A rendered segment of the highlighted document.  `Plain` is a raw text
chunk; `Annotated` is a highlighted span (the source element renders
`text.substring(entity.start, entity.end)` with the entity's type style and
keys the element by `entity.start`; we record that interval alongside). -/
inductive RenderSegment where
  | Plain (text : List Char)
  | Annotated (text : List Char) (category : String) (start stop : Int)
deriving DecidableEq

/-- The text carried by a render segment. -/
def segText : RenderSegment → List Char
  | .Plain t => t
  | .Annotated t _ _ _ => t

/-- Concatenation of the texts of a segment sequence, in output order. -/
def concatTexts (segs : List RenderSegment) : List Char :=
  (segs.map segText).flatten

/-- The document interval highlighted by a segment (`none` for plain). -/
def segInterval : RenderSegment → Option (Int × Int)
  | .Plain _ => none
  | .Annotated _ _ a b => some (a, b)

/-- The intervals of the annotated segments of a sequence, in output order. -/
def annotatedIntervals (segs : List RenderSegment) : List (Int × Int) :=
  segs.filterMap segInterval

/-- One step of the `HighlightedTextViewer` loop: skip the entity when it
starts before the cursor, ends past the document, or is empty or inverted;
otherwise emit the plain gap (when there is one) and the annotated segment
and advance the cursor to the entity's end. -/
def reconcileStep (text : List Char) (st : Int × List RenderSegment)
    (e : PiiEntity) : Int × List RenderSegment :=
  if e.start < st.1 ∨ (text.length : Int) < e.stop ∨ e.stop ≤ e.start then st
  else
    (e.stop,
     st.2
       ++ (if st.1 < e.start then
             [RenderSegment.Plain (jsSubstring text st.1 e.start)]
           else [])
       ++ [RenderSegment.Annotated (jsSubstring text e.start e.stop)
             e.type e.start e.stop])

/-- The stable ascending sort by `start` performed by the viewer
(`[...entities].sort((a, b) => a.start - b.start)`). -/
def sortEntities (entities : List PiiEntity) : List PiiEntity :=
  List.insertionSort (fun a b => a.start ≤ b.start) entities

/-- The final push of the viewer loop: when the cursor has not reached the
end of the document, append the remaining text as a plain segment
(`text.substring(lastIndex)`). -/
def reconcileTail (text : List Char) (st : Int × List RenderSegment) :
    List RenderSegment :=
  if st.1 < (text.length : Int) then
    st.2 ++ [RenderSegment.Plain (jsSubstring text st.1 (text.length : Int))]
  else st.2

/-- The segment sequence built by `HighlightedTextViewer`: the whole text as
one plain chunk when there are no entities, otherwise the cursor walk over
the sorted entities followed by the final plain tail. -/
def reconcile (text : List Char) (entities : List PiiEntity) :
    List RenderSegment :=
  if entities.length = 0 then [RenderSegment.Plain text]
  else reconcileTail text ((sortEntities entities).foldl (reconcileStep text) (0, []))

/-- A text that is an in-bounds contiguous slice of the document. -/
def SliceOf (text t : List Char) : Prop :=
  ∃ a b : Nat, a ≤ b ∧ b ≤ text.length ∧ t = (text.take b).drop a

/-- Invariant of the reconciler cursor state: the cursor is in bounds, the
emitted texts concatenate to the document prefix below the cursor, all
annotated intervals are well formed, below the cursor, and pairwise in
strictly increasing position, and every emitted text is an in-bounds slice,
with each annotated text equal to the slice of its recorded interval. -/
def StInv (text : List Char) (st : Int × List RenderSegment) : Prop :=
  0 ≤ st.1 ∧ st.1 ≤ (text.length : Int) ∧
  concatTexts st.2 = text.take st.1.toNat ∧
  (∀ p ∈ annotatedIntervals st.2, 0 ≤ p.1 ∧ p.1 < p.2 ∧ p.2 ≤ st.1) ∧
  List.Pairwise (fun p q : Int × Int => p.2 ≤ q.1) (annotatedIntervals st.2) ∧
  (∀ s ∈ st.2, SliceOf text (segText s)) ∧
  (∀ t c a b, RenderSegment.Annotated t c a b ∈ st.2 →
     t = jsSubstring text a b)

lemma jsSubstring_eq_take_drop (s : List Char) {a b : Int}
    (h0 : 0 ≤ a) (hab : a ≤ b) (hb : b ≤ (s.length : Int)) :
    jsSubstring s a b = (s.take b.toNat).drop a.toNat := by
  have ha' : clampIdx s.length a = a.toNat := by
    unfold clampIdx
    rw [max_eq_left h0, min_eq_left (le_trans hab hb)]
  have hb' : clampIdx s.length b = b.toNat := by
    unfold clampIdx
    rw [max_eq_left (le_trans h0 hab), min_eq_left hb]
  have hmono : a.toNat ≤ b.toNat := Int.toNat_le_toNat hab
  unfold jsSubstring
  simp only [ha', hb', max_eq_right hmono, min_eq_left hmono]

lemma take_chain (l : List Char) {a b : Nat} (h : a ≤ b) :
    l.take a ++ (l.take b).drop a = l.take b := by
  have h1 : l.take a = (l.take b).take a := by
    rw [List.take_take, min_eq_left h]
  rw [h1, List.take_append_drop]

lemma concatTexts_append (xs ys : List RenderSegment) :
    concatTexts (xs ++ ys) = concatTexts xs ++ concatTexts ys := by
  unfold concatTexts
  rw [List.map_append, List.flatten_append]

lemma concatTexts_singleton (s : RenderSegment) :
    concatTexts [s] = segText s := by
  simp [concatTexts]

lemma annotatedIntervals_append (xs ys : List RenderSegment) :
    annotatedIntervals (xs ++ ys) =
      annotatedIntervals xs ++ annotatedIntervals ys := by
  unfold annotatedIntervals
  rw [List.filterMap_append]

lemma stInv_init (text : List Char) : StInv text (0, []) := by
  refine ⟨le_refl 0, ?_, ?_, ?_, ?_, ?_, ?_⟩
  · show (0 : Int) ≤ (text.length : Int)
    exact Int.natCast_nonneg text.length
  · simp [concatTexts]
  · intro p hp; simp [annotatedIntervals] at hp
  · simp [annotatedIntervals]
  · intro s hs; simp at hs
  · intro t c a b hmem; simp at hmem

lemma stInv_step (text : List Char) (st : Int × List RenderSegment)
    (e : PiiEntity) (h : StInv text st) :
    StInv text (reconcileStep text st e) := by
  obtain ⟨h0, hlen, hcat, hint, hpw, hslice, hann⟩ := h
  unfold reconcileStep
  split
  · exact ⟨h0, hlen, hcat, hint, hpw, hslice, hann⟩
  · rename_i hg
    push_neg at hg
    obtain ⟨hge, hstop, hlt⟩ := hg
    have hstart0 : 0 ≤ e.start := le_trans h0 hge
    have hstop0 : 0 ≤ e.stop := le_trans hstart0 (le_of_lt hlt)
    have hN1 : st.1.toNat ≤ e.start.toNat := Int.toNat_le_toNat hge
    have hN2 : e.start.toNat ≤ e.stop.toNat := Int.toNat_le_toNat (le_of_lt hlt)
    have hN3 : e.stop.toNat ≤ text.length := Int.toNat_le.mpr hstop
    have hgap : jsSubstring text st.1 e.start =
        (text.take e.start.toNat).drop st.1.toNat :=
      jsSubstring_eq_take_drop text h0 hge
        (le_trans (le_of_lt hlt) hstop)
    have hannText : jsSubstring text e.start e.stop =
        (text.take e.stop.toNat).drop e.start.toNat :=
      jsSubstring_eq_take_drop text hstart0 (le_of_lt hlt) hstop
    -- the optional gap always completes the prefix up to the entity start
    have hpre : concatTexts (st.2 ++
        (if st.1 < e.start then
           [RenderSegment.Plain (jsSubstring text st.1 e.start)] else [])) =
        text.take e.start.toNat := by
      split
      · rw [concatTexts_append, hcat, concatTexts_singleton]
        show List.take st.1.toNat text ++ jsSubstring text st.1 e.start = _
        rw [hgap, take_chain text hN1]
      · rename_i hng
        have heq : st.1 = e.start := le_antisymm hge (not_lt.mp hng)
        rw [List.append_nil, hcat, heq]
    have hgapInt : annotatedIntervals
        (if st.1 < e.start then
           [RenderSegment.Plain (jsSubstring text st.1 e.start)] else []) =
        [] := by
      split <;> simp [annotatedIntervals, segInterval]
    refine ⟨hstop0, hstop, ?_, ?_, ?_, ?_, ?_⟩
    · rw [concatTexts_append, hpre, concatTexts_singleton]
      show _ ++ jsSubstring text e.start e.stop = _
      rw [hannText, take_chain text hN2]
    · intro p hp
      rw [annotatedIntervals_append] at hp
      rcases List.mem_append.mp hp with hp | hp
      · rw [annotatedIntervals_append, hgapInt, List.append_nil] at hp
        obtain ⟨a1, a2, a3⟩ := hint p hp
        exact ⟨a1, a2, le_trans a3 (le_trans hge (le_of_lt hlt))⟩
      · simp [annotatedIntervals, segInterval] at hp
        subst hp
        exact ⟨hstart0, hlt, le_refl _⟩
    · rw [annotatedIntervals_append, annotatedIntervals_append, hgapInt,
        List.append_nil, List.pairwise_append]
      refine ⟨hpw, List.pairwise_singleton _ _, ?_⟩
      intro p hp q hq
      simp [annotatedIntervals, segInterval] at hq
      subst hq
      obtain ⟨_, _, a3⟩ := hint p hp
      exact le_trans a3 hge
    · intro s hs
      rcases List.mem_append.mp hs with hs | hs
      · rcases List.mem_append.mp hs with hs | hs
        · exact hslice s hs
        · split at hs
          · simp at hs
            subst hs
            exact ⟨st.1.toNat, e.start.toNat, hN1,
              le_trans hN2 hN3, hgap⟩
          · simp at hs
      · simp at hs
        subst hs
        exact ⟨e.start.toNat, e.stop.toNat, hN2, hN3, hannText⟩
    · intro t c a b hmem
      rcases List.mem_append.mp hmem with hmem | hmem
      · rcases List.mem_append.mp hmem with hmem | hmem
        · exact hann t c a b hmem
        · exfalso
          split at hmem <;> simp at hmem
      · simp at hmem
        obtain ⟨ht, _, ha, hb⟩ := hmem
        rw [ht, ha, hb]

lemma stInv_foldl (text : List Char) (es : List PiiEntity) :
    ∀ st, StInv text st → StInv text (es.foldl (reconcileStep text) st) := by
  induction es with
  | nil => intro st h; exact h
  | cons e es ih =>
      intro st h
      exact ih _ (stInv_step text st e h)

lemma reconcileTail_concat (text : List Char) (st : Int × List RenderSegment)
    (h : StInv text st) : concatTexts (reconcileTail text st) = text := by
  obtain ⟨h0, hlen, hcat, _⟩ := h
  unfold reconcileTail
  split
  · rename_i hlt
    rw [concatTexts_append, hcat, concatTexts_singleton]
    show _ ++ jsSubstring text st.1 (text.length : Int) = _
    rw [jsSubstring_eq_take_drop text h0 (le_of_lt hlt) (le_refl _)]
    rw [Int.toNat_natCast, List.take_length, List.take_append_drop]
  · rename_i hnlt
    have heq : st.1 = (text.length : Int) := le_antisymm hlen (not_lt.mp hnlt)
    rw [hcat, heq, Int.toNat_natCast, List.take_length]

lemma reconcileTail_intervals (text : List Char)
    (st : Int × List RenderSegment) :
    annotatedIntervals (reconcileTail text st) = annotatedIntervals st.2 := by
  unfold reconcileTail
  split
  · rw [annotatedIntervals_append]
    simp [annotatedIntervals, segInterval]
  · rfl

/-- C1 (partition law): for every document and every entity sequence,
including the empty one, concatenating the texts of the render segments
produced by the reconciler, in output order, yields the original document
exactly. -/
theorem reconcile_partition (text : List Char) (entities : List PiiEntity) :
    concatTexts (reconcile text entities) = text := by
  unfold reconcile
  split
  · rw [concatTexts_singleton]; rfl
  · exact reconcileTail_concat text _
      (stInv_foldl text (sortEntities entities) (0, []) (stInv_init text))

/-- C2 (no-overlap law): for every document and every entity sequence, the
half-open document intervals of any two distinct annotated segments produced
by the reconciler are disjoint: no character index lies in both. -/
theorem reconcile_no_overlap (text : List Char) (entities : List PiiEntity) :
    List.Pairwise
      (fun p q : Int × Int =>
        ∀ k : Int, ¬(p.1 ≤ k ∧ k < p.2 ∧ q.1 ≤ k ∧ k < q.2))
      (annotatedIntervals (reconcile text entities)) := by
  have base : List.Pairwise (fun p q : Int × Int => p.2 ≤ q.1)
      (annotatedIntervals (reconcile text entities)) := by
    unfold reconcile
    split
    · simp [annotatedIntervals, segInterval]
    · rw [reconcileTail_intervals]
      exact (stInv_foldl text (sortEntities entities) (0, [])
        (stInv_init text)).2.2.2.2.1
  refine base.imp ?_
  intro p q hpq k
  rintro ⟨_, hk2, hk3, _⟩
  exact absurd (lt_of_lt_of_le hk2 (le_trans hpq hk3)) (lt_irrefl k)

lemma reconcileTail_slices (text : List Char) (st : Int × List RenderSegment)
    (h : StInv text st) :
    ∀ s ∈ reconcileTail text st, SliceOf text (segText s) := by
  obtain ⟨h0, hlen, _, _, _, hslice, _⟩ := h
  intro s hs
  unfold reconcileTail at hs
  split at hs
  · rename_i hlt
    rcases List.mem_append.mp hs with hs | hs
    · exact hslice s hs
    · simp at hs
      subst hs
      refine ⟨st.1.toNat, text.length, Int.toNat_le.mpr hlen, le_refl _, ?_⟩
      show jsSubstring text st.1 (text.length : Int) = _
      rw [jsSubstring_eq_take_drop text h0 (le_of_lt hlt) (le_refl _),
        Int.toNat_natCast]
  · exact hslice s hs

/-- C3 (cursor walk and overlap drop policy): the reconciler sorts the spans
ascending by start and walks them with a cursor starting at 0; a well-formed
span starting strictly before the cursor is dropped and leaves the state
unchanged (first-starting span wins), while any other well-formed span emits
the optional plain gap followed by its annotated segment and advances the
cursor to its end.  On document "HelloWorld!!" with spans (0,5,NAME) and
(3,8,ADDRESS) the output is Annotated("Hello",NAME) then Plain("World!!"),
the second span being dropped. -/
theorem reconcile_cursor_walk :
    (∀ (text : List Char) (st : Int × List RenderSegment) (e : PiiEntity),
        e.start < st.1 → reconcileStep text st e = st) ∧
    (∀ (text : List Char) (st : Int × List RenderSegment) (e : PiiEntity),
        st.1 ≤ e.start → e.start < e.stop → e.stop ≤ (text.length : Int) →
        reconcileStep text st e =
          (e.stop,
           st.2
             ++ (if st.1 < e.start then
                   [RenderSegment.Plain (jsSubstring text st.1 e.start)]
                 else [])
             ++ [RenderSegment.Annotated (jsSubstring text e.start e.stop)
                   e.type e.start e.stop])) ∧
    (∀ entities : List PiiEntity,
        List.Sorted (fun a b : PiiEntity => a.start ≤ b.start)
          (sortEntities entities)) ∧
    reconcile "HelloWorld!!".data
        [⟨"NAME", "Hello", 0, 5, "high"⟩, ⟨"ADDRESS", "loWor", 3, 8, "high"⟩] =
      [RenderSegment.Annotated "Hello".data "NAME" 0 5,
       RenderSegment.Plain "World!!".data] := by
  refine ⟨?_, ?_, ?_, by decide⟩
  · intro text st e h
    unfold reconcileStep
    rw [if_pos (Or.inl h)]
  · intro text st e h1 h2 h3
    unfold reconcileStep
    rw [if_neg (by push_neg; exact ⟨h1, h3, h2⟩)]
  · intro entities
    haveI : IsTotal PiiEntity (fun a b => a.start ≤ b.start) :=
      ⟨fun a b => le_total a.start b.start⟩
    haveI : IsTrans PiiEntity (fun a b => a.start ≤ b.start) :=
      ⟨fun a b c hab hbc => le_trans hab hbc⟩
    exact List.sorted_insertionSort _ entities

/-- Witness for C3: the drop branch and the emit branch of the cursor walk,
evaluated at concrete states drawn from the HelloWorld example. -/
theorem reconcile_cursor_walk_witness :
    reconcileStep "HelloWorld!!".data (5, [])
        ⟨"ADDRESS", "loWor", 3, 8, "high"⟩ = (5, []) ∧
    reconcileStep "HelloWorld!!".data (0, [])
        ⟨"NAME", "Hello", 0, 5, "high"⟩ =
      (5, [RenderSegment.Annotated "Hello".data "NAME" 0 5]) := by
  constructor
  · exact reconcile_cursor_walk.1 _ _ _ (by decide)
  · have h := reconcile_cursor_walk.2.1 "HelloWorld!!".data (0, [])
      ⟨"NAME", "Hello", 0, 5, "high"⟩ (by decide) (by decide) (by decide)
    rw [h]
    decide

/-- C10 (totality and in-bounds safety on arbitrary entity lists): any
entity starting before the cursor, ending past the document, or empty or
inverted is silently skipped; every emitted segment's text is an in-bounds
contiguous slice of the document, and every annotated interval is well
formed and within the document bounds, even for malformed input spans. -/
theorem reconcile_total_safe :
    (∀ (text : List Char) (st : Int × List RenderSegment) (e : PiiEntity),
        e.start < st.1 ∨ (text.length : Int) < e.stop ∨ e.stop ≤ e.start →
        reconcileStep text st e = st) ∧
    (∀ (text : List Char) (entities : List PiiEntity),
        ∀ s ∈ reconcile text entities, SliceOf text (segText s)) ∧
    (∀ (text : List Char) (entities : List PiiEntity),
        ∀ p ∈ annotatedIntervals (reconcile text entities),
          0 ≤ p.1 ∧ p.1 < p.2 ∧ p.2 ≤ (text.length : Int)) := by
  refine ⟨?_, ?_, ?_⟩
  · intro text st e h
    unfold reconcileStep
    rw [if_pos h]
  · intro text entities s hs
    unfold reconcile at hs
    split at hs
    · simp at hs
      subst hs
      exact ⟨0, text.length, Nat.zero_le _, le_refl _, by simp [segText]⟩
    · exact reconcileTail_slices text _
        (stInv_foldl text (sortEntities entities) (0, []) (stInv_init text))
        s hs
  · intro text entities p hp
    unfold reconcile at hp
    split at hp
    · simp [annotatedIntervals, segInterval] at hp
    · rw [reconcileTail_intervals] at hp
      have h := stInv_foldl text (sortEntities entities) (0, [])
        (stInv_init text)
      obtain ⟨_, hlen, _, hint, _⟩ := h
      obtain ⟨a1, a2, a3⟩ := hint p hp
      exact ⟨a1, a2, le_trans a3 hlen⟩

/-- Witness for C10: a concrete malformed entity (start -1, end 10 on a
3-character document) is skipped, and a concrete annotated segment of the
resulting render is an in-bounds slice. -/
theorem reconcile_total_safe_witness :
    reconcileStep "abc".data (0, []) ⟨"NAME", "x", -1, 10, "high"⟩ = (0, []) ∧
    SliceOf "abc".data
      (segText (RenderSegment.Annotated "b".data "SSN" 1 2)) := by
  constructor
  · exact reconcile_total_safe.1 _ _ _ (by decide)
  · exact reconcile_total_safe.2.1 "abc".data
      [⟨"NAME", "x", -1, 10, "high"⟩, ⟨"SSN", "b", 1, 2, "low"⟩] _ (by decide)

/-! ### Category normalization and span validation (detect-pii flow) -/

/-- Does the pattern match at the head of the text?  (Helper for the
JavaScript `replace` and `includes` string operations.) -/
def matchesHere (s pat : List Char) : Bool :=
  match pat, s with
  | [], _ => true
  | _ :: _, [] => false
  | p :: ps, c :: rest => c == p && matchesHere rest ps

/-- JavaScript `hay.includes(needle)`: the needle occurs as a contiguous
substring of the hay. -/
def hasSubstr : List Char → List Char → Bool
  | [], pat => pat.isEmpty
  | c :: rest, pat => matchesHere (c :: rest) pat || hasSubstr rest pat

/-- JavaScript `s.replace(pat, '')` with a string pattern: remove the first
occurrence of the pattern, leaving the string unchanged when it is absent. -/
def replaceFirst : List Char → List Char → List Char
  | [], _ => []
  | c :: rest, pat =>
      if matchesHere (c :: rest) pat then (c :: rest).drop pat.length
      else c :: replaceFirst rest pat

/-- JavaScript `s.toUpperCase()` on the ASCII labels used here. -/
def jsToUpper (s : List Char) : List Char := s.map Char.toUpper

/-- JavaScript `s.trim()`: strip whitespace from both ends. -/
def jsTrim (s : List Char) : List Char :=
  ((s.dropWhile Char.isWhitespace).reverse.dropWhile Char.isWhitespace).reverse

/-- The `PII_TYPE_CORRECTIONS` table of the detect-pii flow: corrections for
common oracle label inconsistencies. -/
def PII_TYPE_CORRECTIONS : List (String × String) :=
  [("EMAILS", "EMAIL"), ("EMAIL_ADDRESS", "EMAIL"), ("EMAIL ADDRESS", "EMAIL"),
   ("NAMES", "NAME"), ("PERSON_NAME", "NAME"), ("PERSON NAME", "NAME"),
   ("PHONE_NUMBER", "PHONE"), ("PHONE NUMBER", "PHONE"), ("PHONES", "PHONE"),
   ("ADDRESSES", "ADDRESS"), ("ADDRESSS", "ADDRESS"),
   ("DOBS", "DOB"), ("DATE_OF_BIRTH", "DOB"),
   ("SSNS", "SSN"), ("SOCIAL_SECURITY_NUMBER", "SSN"),
   ("PASSPORTS", "PASSPORT"), ("AADHAARS", "AADHAAR"), ("PANS", "PAN")]

/-- The flow's normalized-type computation:
`entity.type.toUpperCase().replace('PII_', '').trim()` followed by the
correction table lookup with the uncorrected string as default. -/
def normalizeType (t : String) : String :=
  let n : String := ⟨jsTrim (replaceFirst (jsToUpper t.data) "PII_".data)⟩
  match PII_TYPE_CORRECTIONS.lookup n with
  | some c => c
  | none => n

/-- The client's category catalog `PII_TYPES`, in declared order. -/
def PII_TYPES : List String :=
  ["EMAIL", "NAME", "SSN", "PHONE", "ADDRESS", "PASSPORT", "DOB",
   "AADHAAR", "PAN"]

/-- A canonical category: a catalog member, or the reserved marker for a
label that does not normalize into the catalog. -/
inductive Category where
  | member (name : String) : Category
  | Unrecognized (rawLabel : String) : Category
deriving DecidableEq

/-- The Normalizer at catalog level: the flow's normalized-type computation
followed by the catalog membership test (the flow tests membership in the
requested list, which defaults to the full catalog `PII_TYPES`). -/
def normalize (raw : String) : Category :=
  let n := normalizeType raw
  if n ∈ PII_TYPES then Category.member n else Category.Unrecognized raw

/-- Modelled from the claim wording, for comparison with `normalize`:
uppercase and trim the label, strip a LEADING `PII_` prefix if present,
apply the correction table, then the catalog membership test. -/
def normalizeClaimed (raw : String) : Category :=
  let u := jsTrim (jsToUpper raw.data)
  let s := if matchesHere u "PII_".data then u.drop 4 else u
  let n : String := ⟨s⟩
  let c := match PII_TYPE_CORRECTIONS.lookup n with
    | some c => c
    | none => n
  if c ∈ PII_TYPES then Category.member c else Category.Unrecognized raw

/-- One candidate through the detect-pii flow's per-entity step: the field
sanity check (empty value or inverted indices), type normalization, the
requested-type allow-list filter, the exact index check
`data.substring(start, end) == value`, and the bounded fuzzy recovery on
the window padded by 2 characters each side clamped to document bounds. -/
def processEntity (piiTypesToScan : List String) (data : List Char)
    (e : PiiEntity) : Option PiiEntity :=
  if e.value = "" ∨ e.stop ≤ e.start then none
  else if normalizeType e.type ∉ piiTypesToScan then none
  else if jsSubstring data e.start e.stop = e.value.data then
    some { e with type := normalizeType e.type }
  else if hasSubstr (jsSubstring data (max 0 (e.start - 2))
      (min (data.length : Int) (e.stop + 2))) e.value.data = true then
    some { e with type := normalizeType e.type }
  else none

/-- The detect-pii flow body: a missing or shapeless oracle output yields no
entities; otherwise each proposed entity goes through `processEntity` and
the rejected ones are dropped. -/
def detectPiiFlow (piiTypesToScan : List String) (data : List Char)
    (oracleOutput : Option (List PiiEntity)) : List PiiEntity :=
  match oracleOutput with
  | none => []
  | some entities => entities.filterMap (processEntity piiTypesToScan data)

/-- The input record of `detectPii`. -/
structure DetectPiiInput where
  data : String
  piiTypesToScan : List String

/-- The exported `detectPii` entry point.  The second component of the
result counts how many times the oracle flow was invoked: an empty
requested-type list short-circuits without invoking it. -/
def detectPii (input : DetectPiiInput)
    (oracleOutput : Option (List PiiEntity)) : List PiiEntity × Nat :=
  if input.piiTypesToScan.length = 0 then ([], 0)
  else (detectPiiFlow input.piiTypesToScan input.data.data oracleOutput, 1)

lemma processEntity_some_spec {pii : List String} {data : List Char}
    {a e : PiiEntity} (h : processEntity pii data a = some e) :
    e = { a with type := normalizeType a.type } ∧ normalizeType a.type ∈ pii := by
  unfold processEntity at h
  split at h
  · exact absurd h (by simp)
  · split at h
    · exact absurd h (by simp)
    · rename_i hcat
      split at h
      · exact ⟨(Option.some.inj h).symm, not_not.mp hcat⟩
      · split at h
        · exact ⟨(Option.some.inj h).symm, not_not.mp hcat⟩
        · exact absurd h (by simp)

/-- C4 (exact check then bounded fuzzy recovery): for a candidate passing
the field and category checks, an exact substring match accepts it; on an
exact mismatch the value is searched in the window padded by exactly 2 on
each side clamped to document bounds, acceptance keeping the original start
and end unchanged; when that search also fails the candidate is rejected
and omitted. -/
theorem validator_fuzzy_recovery (pii : List String) (data : List Char)
    (e : PiiEntity)
    (hfield : ¬(e.value = "" ∨ e.stop ≤ e.start))
    (hcat : normalizeType e.type ∈ pii) :
    (jsSubstring data e.start e.stop = e.value.data →
        processEntity pii data e =
          some { e with type := normalizeType e.type }) ∧
    (jsSubstring data e.start e.stop ≠ e.value.data →
        hasSubstr (jsSubstring data (max 0 (e.start - 2))
            (min (data.length : Int) (e.stop + 2))) e.value.data = true →
        processEntity pii data e =
          some { e with type := normalizeType e.type }) ∧
    (jsSubstring data e.start e.stop ≠ e.value.data →
        hasSubstr (jsSubstring data (max 0 (e.start - 2))
            (min (data.length : Int) (e.stop + 2))) e.value.data = false →
        processEntity pii data e = none) ∧
    (∀ r, processEntity pii data e = some r →
        r.start = e.start ∧ r.stop = e.stop ∧ r.value = e.value) := by
  have hne : ¬(normalizeType e.type ∉ pii) := not_not.mpr hcat
  refine ⟨?_, ?_, ?_, ?_⟩
  · intro hex
    unfold processEntity
    rw [if_neg hfield, if_neg hne, if_pos hex]
  · intro hnex hfz
    unfold processEntity
    rw [if_neg hfield, if_neg hne, if_neg hnex, if_pos hfz]
  · intro hnex hfz
    unfold processEntity
    rw [if_neg hfield, if_neg hne, if_neg hnex,
      if_neg (by rw [hfz]; exact Bool.false_ne_true)]
  · intro r hr
    obtain ⟨he, _⟩ := processEntity_some_spec hr
    rw [he]
    exact ⟨rfl, rfl, rfl⟩

/-- Witness for C4: a concrete fuzzy-recovered candidate (indices off by
one, value found in the padded window, original indices kept) and a
concrete rejected candidate (value absent from the padded window). -/
theorem validator_fuzzy_recovery_witness :
    processEntity ["NAME"] "abcdef".data ⟨"NAME", "cd", 1, 3, "high"⟩ =
      some ⟨"NAME", "cd", 1, 3, "high"⟩ ∧
    processEntity ["NAME"] "abcdef".data ⟨"NAME", "zz", 1, 3, "high"⟩ =
      none := by
  constructor
  · have h := (validator_fuzzy_recovery ["NAME"] "abcdef".data
      ⟨"NAME", "cd", 1, 3, "high"⟩ (by decide) (by decide)).2.1
      (by decide) (by decide)
    rw [h]
    decide
  · exact (validator_fuzzy_recovery ["NAME"] "abcdef".data
      ⟨"NAME", "zz", 1, 3, "high"⟩ (by decide) (by decide)).2.2.1
      (by decide) (by decide)

lemma replaceFirst_of_absent (s pat : List Char)
    (h : hasSubstr s pat = false) : replaceFirst s pat = s := by
  induction s with
  | nil => rfl
  | cons c rest ih =>
      rw [hasSubstr, Bool.or_eq_false_iff] at h
      obtain ⟨h1, h2⟩ := h
      rw [replaceFirst, if_neg (by rw [h1]; exact Bool.false_ne_true), ih h2]

lemma matchesHere_self_append (n t : List Char) :
    matchesHere (n ++ t) n = true := by
  induction n with
  | nil => cases t <;> rfl
  | cons c cs ih => simp [matchesHere, ih]

lemma replaceFirst_nil_pat (s : List Char) : replaceFirst s [] = s := by
  cases s with
  | nil => rfl
  | cons c rest =>
      rw [replaceFirst,
        if_pos (show matchesHere (c :: rest) [] = true from rfl)]
      rfl

lemma replaceFirst_first_occurrence (u v pat : List Char)
    (h : ∀ i : Nat, i < u.length →
      matchesHere ((u ++ pat ++ v).drop i) pat = false) :
    replaceFirst (u ++ pat ++ v) pat = u ++ v := by
  induction u with
  | nil =>
      simp only [List.nil_append]
      cases pat with
      | nil => exact replaceFirst_nil_pat v
      | cons p ps =>
          show replaceFirst ((p :: ps) ++ v) (p :: ps) = v
          rw [List.cons_append, replaceFirst,
            if_pos (by
              rw [show p :: (ps ++ v) = (p :: ps) ++ v from rfl]
              rw [matchesHere_self_append])]
          show ((p :: ps) ++ v).drop (p :: ps).length = v
          rw [List.drop_left]
  | cons c u2 ih =>
      have h0 : matchesHere (c :: (u2 ++ pat ++ v)) pat = false := by
        have hh := h 0 (Nat.succ_pos u2.length)
        simpa using hh
      show replaceFirst ((c :: u2) ++ pat ++ v) pat = (c :: u2) ++ v
      simp only [List.cons_append]
      rw [replaceFirst, if_neg (by rw [h0]; exact Bool.false_ne_true)]
      congr 1
      apply ih
      intro i hi
      have hh := h (i + 1) (Nat.succ_lt_succ hi)
      simpa using hh

/-- C5 counterexample: the code removes the FIRST occurrence of the
substring PII_ anywhere in the label, not only a leading prefix, so on the
raw label EPII_MAILS the code yields the catalog member EMAIL while the
claimed algorithm yields the unrecognized marker. -/
theorem normalize_leading_strip_counterexample :
    normalize "EPII_MAILS" = Category.member "EMAIL" ∧
    normalizeClaimed "EPII_MAILS" = Category.Unrecognized "EPII_MAILS" ∧
    normalize "EPII_MAILS" ≠ normalizeClaimed "EPII_MAILS" := by decide

/-- C5 (amended): normalization uppercases the label, removes the first
occurrence of PII_ anywhere in it (leaving it unchanged when PII_ is
absent), trims, applies the correction table, and returns the result as a
catalog member when it is one, otherwise the unrecognized marker carrying
the raw label; it is total, and the four enumerated examples hold. -/
theorem normalize_characterization :
    (∀ s : List Char, hasSubstr s "PII_".data = false →
        replaceFirst s "PII_".data = s) ∧
    (∀ u v : List Char,
        (∀ i : Nat, i < u.length →
          matchesHere ((u ++ "PII_".data ++ v).drop i) "PII_".data = false) →
        replaceFirst (u ++ "PII_".data ++ v) "PII_".data = u ++ v) ∧
    normalize "EMAILS" = Category.member "EMAIL" ∧
    normalize "PII_NAME" = Category.member "NAME" ∧
    normalize "PHONE NUMBER" = Category.member "PHONE" ∧
    normalize "XYZ_UNKNOWN" = Category.Unrecognized "XYZ_UNKNOWN" ∧
    normalize "EPII_MAILS" = Category.member "EMAIL" := by
  refine ⟨fun s h => replaceFirst_of_absent s _ h,
          fun u v h => replaceFirst_first_occurrence u v _ h,
          by decide, by decide, by decide, by decide, by decide⟩

/-- Witness for C5: the removal characterization evaluated on concrete
labels: NAME is left unchanged, and the interior occurrence in EPII_MAILS
is removed. -/
theorem normalize_characterization_witness :
    replaceFirst "NAME".data "PII_".data = "NAME".data ∧
    replaceFirst ("E".data ++ "PII_".data ++ "MAILS".data) "PII_".data =
      "E".data ++ "MAILS".data := by
  constructor
  · exact normalize_characterization.1 _ (by decide)
  · exact normalize_characterization.2.1 "E".data "MAILS".data (by decide)

/-- C6 (category allow-list): for every document, requested-type list and
oracle output, every entity in the flow's result has a type belonging to
the requested list; when the requested list is drawn from the catalog, no
type outside the catalog (hence no unrecognized label) ever appears. -/
theorem detect_allowlist (pii : List String) (data : List Char)
    (oracle : Option (List PiiEntity)) :
    (∀ e ∈ detectPiiFlow pii data oracle, e.type ∈ pii) ∧
    ((∀ t ∈ pii, t ∈ PII_TYPES) →
      ∀ e ∈ detectPiiFlow pii data oracle, e.type ∈ PII_TYPES) := by
  have main : ∀ e ∈ detectPiiFlow pii data oracle, e.type ∈ pii := by
    intro e he
    cases oracle with
    | none => simp [detectPiiFlow] at he
    | some entities =>
        simp only [detectPiiFlow] at he
        obtain ⟨a, _, ha⟩ := List.mem_filterMap.mp he
        obtain ⟨heq, hmem⟩ := processEntity_some_spec ha
        rw [heq]
        exact hmem
  exact ⟨main, fun hsub e he => hsub _ (main e he)⟩

/-- Witness for C6: a concrete scan in which the oracle proposes the label
EMAILS; the surviving entity's type is the requested catalog member. -/
theorem detect_allowlist_witness :
    (PiiEntity.mk "EMAIL" "a@b.c" 3 8 "high").type ∈ ["EMAIL"] := by
  have h := (detect_allowlist ["EMAIL"] "hi a@b.c".data
    (some [⟨"EMAILS", "a@b.c", 3, 8, "high"⟩])).1
  exact h _ (by decide)

/-- C7 counterexample: the validator has no OutOfBounds check: the concrete
candidate with start -1 on document abc passes the field and category
checks, its exact check succeeds on the bound-clamped substring, and it is
accepted into the result with its negative start. -/
theorem validator_oob_counterexample :
    processEntity ["NAME"] "abc".data ⟨"NAME", "ab", -1, 2, "high"⟩ =
      some ⟨"NAME", "ab", -1, 2, "high"⟩ ∧
    ((-1 : Int) < 0) := by decide

/-- C7 (amended): validation has no OutOfBounds rejection: a candidate is
rejected exactly when the field check fires (empty value or end at most
start), the normalized category is not requested, or both the exact check
and the padded-window search fail on the bound-clamped substrings; in
particular a candidate with end past the document length can be accepted. -/
theorem validator_rejection_reasons (pii : List String) (data : List Char)
    (e : PiiEntity) :
    (processEntity pii data e = none ↔
      ((e.value = "" ∨ e.stop ≤ e.start) ∨
       normalizeType e.type ∉ pii ∨
       (jsSubstring data e.start e.stop ≠ e.value.data ∧
        hasSubstr (jsSubstring data (max 0 (e.start - 2))
          (min (data.length : Int) (e.stop + 2))) e.value.data = false))) ∧
    processEntity ["NAME"] "abcd".data ⟨"NAME", "cd", 2, 50, "high"⟩ =
      some ⟨"NAME", "cd", 2, 50, "high"⟩ := by
  constructor
  · constructor
    · intro h
      unfold processEntity at h
      split at h
      · rename_i hf
        exact Or.inl hf
      · split at h
        · rename_i hc
          exact Or.inr (Or.inl hc)
        · split at h
          · exact absurd h (by simp)
          · split at h
            · exact absurd h (by simp)
            · rename_i hnex hnfz
              exact Or.inr (Or.inr ⟨hnex, Bool.eq_false_iff.mpr hnfz⟩)
    · intro h
      unfold processEntity
      rcases h with hf | hc | ⟨hnex, hnfz⟩
      · rw [if_pos hf]
      · by_cases hf : e.value = "" ∨ e.stop ≤ e.start
        · rw [if_pos hf]
        · rw [if_neg hf, if_pos hc]
      · by_cases hf : e.value = "" ∨ e.stop ≤ e.start
        · rw [if_pos hf]
        · by_cases hc : normalizeType e.type ∉ pii
          · rw [if_neg hf, if_pos hc]
          · rw [if_neg hf, if_neg hc, if_neg hnex,
              if_neg (by rw [hnfz]; exact Bool.false_ne_true)]
  · decide

/-- C9 (empty category set short-circuit): with an empty requested-type
list, detectPii returns an empty entity list and performs zero oracle-flow
invocations, for every document and oracle output. -/
theorem detectPii_empty_short_circuit (input : DetectPiiInput)
    (oracle : Option (List PiiEntity)) (h : input.piiTypesToScan = []) :
    detectPii input oracle = ([], 0) := by
  unfold detectPii
  rw [if_pos (by rw [h]; rfl)]

/-- Witness for C9: a concrete empty-category request short-circuits even
though the oracle output proposes an entity. -/
theorem detectPii_empty_short_circuit_witness :
    detectPii ⟨"abc", []⟩ (some [⟨"EMAIL", "a", 0, 1, "high"⟩]) = ([], 0) :=
  detectPii_empty_short_circuit ⟨"abc", []⟩
    (some [⟨"EMAIL", "a", 0, 1, "high"⟩]) rfl

/-! ### Summary aggregation (piiSummaryCounts) -/

/-- JavaScript record update `acc[key] = (acc[key] || 0) + 1` on an object
modelled as an association list in key insertion order: bump the existing
entry in place, or append a fresh entry with count 1 at the end. -/
def bumpKey : List (String × Nat) → String → List (String × Nat)
  | [], k => [(k, 1)]
  | p :: rest, k =>
      if p.1 = k then (p.1, p.2 + 1) :: rest else p :: bumpKey rest k

/-- The client's `piiSummaryCounts`: the per-type count record built by
`reduce` over the entity list, in JavaScript object key insertion order
(the order `Object.entries` enumerates for presentation). -/
def piiSummaryCounts (entities : List PiiEntity) : List (String × Nat) :=
  entities.foldl (fun acc e => bumpKey acc e.type) []

/-- Association-list lookup (JavaScript `acc[key]`). -/
def lookupKey : List (String × Nat) → String → Option Nat
  | [], _ => none
  | p :: rest, t => if p.1 = t then some p.2 else lookupKey rest t

/-- The enumerated keys of the record, in order. -/
def keysOf (acc : List (String × Nat)) : List String := acc.map Prod.fst

/-- Append a key if it is not already present. -/
def insertNew (acc : List String) (k : String) : List String :=
  if k ∈ acc then acc else acc ++ [k]

/-- The first-occurrence order of the entity types: the key insertion order
of the summary record. -/
def keyOrderOf (entities : List PiiEntity) : List String :=
  entities.foldl (fun acc e => insertNew acc e.type) []

/-- The keys reordered as the claim demands: enumerated in the catalog's
declared order. -/
def catalogOrder (keys : List String) : List String :=
  PII_TYPES.filter (fun t => keys.contains t)

lemma lookupKey_bumpKey (acc : List (String × Nat)) (k t : String) :
    lookupKey (bumpKey acc k) t =
      if t = k then some ((lookupKey acc t).getD 0 + 1)
      else lookupKey acc t := by
  induction acc with
  | nil =>
      by_cases htk : t = k
      · subst htk; simp [bumpKey, lookupKey]
      · have hkt : ¬k = t := fun h => htk h.symm
        simp [bumpKey, lookupKey, htk, hkt]
  | cons p rest ih =>
      by_cases hpk : p.1 = k
      · by_cases htk : t = k
        · subst htk
          simp [bumpKey, lookupKey, hpk]
        · have hkt : ¬k = t := fun h => htk h.symm
          have hpt : ¬p.1 = t := by rw [hpk]; exact hkt
          simp [bumpKey, lookupKey, hpk, hpt, htk, hkt]
      · by_cases hpt : p.1 = t
        · have htk : ¬t = k := fun h => hpk (by rw [hpt, h])
          simp [bumpKey, lookupKey, hpk, hpt, htk]
        · simp [bumpKey, lookupKey, hpk, hpt, ih]

lemma keysOf_bumpKey (acc : List (String × Nat)) (k : String) :
    keysOf (bumpKey acc k) = insertNew (keysOf acc) k := by
  induction acc with
  | nil => simp [bumpKey, keysOf, insertNew]
  | cons p rest ih =>
      by_cases hpk : p.1 = k
      · rw [show bumpKey (p :: rest) k = (p.1, p.2 + 1) :: rest from by
          simp [bumpKey, hpk]]
        show p.1 :: keysOf rest = insertNew (p.1 :: keysOf rest) k
        unfold insertNew
        rw [if_pos (by rw [← hpk]; exact List.mem_cons_self _ _)]
      · have hne : ¬k = p.1 := fun h => hpk h.symm
        rw [show bumpKey (p :: rest) k = p :: bumpKey rest k from by
          simp [bumpKey, hpk]]
        show p.1 :: keysOf (bumpKey rest k) = insertNew (p.1 :: keysOf rest) k
        rw [ih]
        unfold insertNew
        by_cases hmem : k ∈ keysOf rest
        · rw [if_pos hmem, if_pos (List.mem_cons_of_mem _ hmem)]
        · rw [if_neg hmem, if_neg (by
            intro hk
            rcases List.mem_cons.mp hk with h | h
            · exact hne h
            · exact hmem h)]
          rfl

lemma summary_fold_lookup (entities : List PiiEntity) (t : String) :
    ∀ acc : List (String × Nat),
      lookupKey
        (entities.foldl (fun acc e => bumpKey acc e.type) acc) t =
      (match lookupKey acc t with
       | some n => some (n + entities.countP (fun e => e.type == t))
       | none =>
           if 0 < entities.countP (fun e => e.type == t) then
             some (entities.countP (fun e => e.type == t))
           else none) := by
  induction entities with
  | nil =>
      intro acc
      cases hl : lookupKey acc t <;> simp [hl]
  | cons e es ih =>
      intro acc
      rw [List.foldl_cons, ih (bumpKey acc e.type), lookupKey_bumpKey]
      by_cases het : e.type = t
      · have htk : t = e.type := het.symm
        rw [if_pos htk]
        cases hl : lookupKey acc t <;>
          simp [List.countP_cons, het, hl, Nat.add_comm, Nat.add_assoc,
            Nat.add_left_comm]
      · have htk : t ≠ e.type := fun h => het h.symm
        rw [if_neg htk]
        cases hl : lookupKey acc t <;>
          simp [List.countP_cons, het, hl]

lemma summary_fold_keys (entities : List PiiEntity) :
    ∀ acc : List (String × Nat),
      keysOf (entities.foldl (fun acc e => bumpKey acc e.type) acc) =
        entities.foldl (fun ks e => insertNew ks e.type) (keysOf acc) := by
  induction entities with
  | nil => intro acc; rfl
  | cons e es ih =>
      intro acc
      rw [List.foldl_cons, List.foldl_cons, ih (bumpKey acc e.type),
        keysOf_bumpKey]

/-- C8 counterexample: on an entity list proposing a PHONE before an EMAIL,
the record's enumerated key order is the insertion order PHONE, EMAIL, not
the catalog's declared order EMAIL, PHONE. -/
theorem summary_order_counterexample :
    keysOf (piiSummaryCounts
        [⟨"PHONE", "555-1234", 0, 8, "high"⟩,
         ⟨"EMAIL", "a@b.co", 9, 15, "high"⟩]) = ["PHONE", "EMAIL"] ∧
    catalogOrder (keysOf (piiSummaryCounts
        [⟨"PHONE", "555-1234", 0, 8, "high"⟩,
         ⟨"EMAIL", "a@b.co", 9, 15, "high"⟩])) = ["EMAIL", "PHONE"] ∧
    keysOf (piiSummaryCounts
        [⟨"PHONE", "555-1234", 0, 8, "high"⟩,
         ⟨"EMAIL", "a@b.co", 9, 15, "high"⟩]) ≠
      catalogOrder (keysOf (piiSummaryCounts
        [⟨"PHONE", "555-1234", 0, 8, "high"⟩,
         ⟨"EMAIL", "a@b.co", 9, 15, "high"⟩])) := by decide

/-- C8 (amended): the summary record maps each type to the exact number of
entities of that type, a type with zero occurrences is absent (never
present with value 0), and the record is enumerated for presentation in key
insertion order, that is, the first-occurrence order of the entity types,
not the catalog's declared order. -/
theorem summary_counts_spec :
    (∀ (entities : List PiiEntity) (t : String),
        lookupKey (piiSummaryCounts entities) t =
          (if 0 < entities.countP (fun e => e.type == t) then
             some (entities.countP (fun e => e.type == t))
           else none)) ∧
    (∀ entities : List PiiEntity,
        keysOf (piiSummaryCounts entities) = keyOrderOf entities) := by
  constructor
  · intro entities t
    have h := summary_fold_lookup entities t []
    simpa [lookupKey, piiSummaryCounts] using h
  · intro entities
    have h := summary_fold_keys entities []
    simpa [keysOf, piiSummaryCounts, keyOrderOf] using h

end PIIEngine
